import Mathlib

/-!
Shallow embedding of `src/main.c`, a Universal Machine (UM) interpreter.

The C program keeps a spine `uint32_t **segments` of malloc'd backing
arrays.  Each backing array stores the segment's word count at index 0 and
the VM-visible words at indices 1.. .  We model the C heap explicitly as an
association list from malloc addresses (Nat) to backing arrays
(`List Nat`), so that pointer identity, `free`, and deep-copy independence
are faithfully represented.  Machine words are `Nat` with explicit
`% 2^32` where the C code's `uint32_t` arithmetic wraps, and the 64-bit
intermediates of the bitpack module use explicit `% 2^64`.

The free-identifier stack `unmapped_IDs` is a C array whose top is the
back element; we model it as a `List Nat` whose top is the head.
-/

/-- Lookup of a malloc address in the modelled heap. -/
def hlookup : List (Nat × List Nat) → Nat → Option (List Nat)
  | [], _ => none
  | (b, s) :: t, a => if b = a then some s else hlookup t a

/-- Modelled `free`: removes the entry at address `a`. -/
def hfree : List (Nat × List Nat) → Nat → List (Nat × List Nat)
  | [], _ => []
  | (b, s) :: t, a => if b = a then hfree t a else (b, s) :: hfree t a

/-- In-place write of the whole backing array at address `a` (used to model
a single `segments[id][i] = v` store). Missing addresses are untouched. -/
def hupdate : List (Nat × List Nat) → Nat → List Nat → List (Nat × List Nat)
  | [], _, _ => []
  | (b, s) :: t, a, v => if b = a then (a, v) :: t else (b, s) :: hupdate t a v

/-- The `struct universal_machine` of `main.c`.  `segments` maps a segment
identifier to the malloc address of its backing array; capacity fields
(`ID_arr_size`, `segment_arr_size`) are growth details with no observable
effect and are dropped. -/
structure universal_machine where
  registers : List Nat
  program_counter : Nat
  unmapped_IDs : List Nat
  segments : List Nat
  num_segments : Nat
  heap : List (Nat × List Nat)
  next_addr : Nat
deriving DecidableEq

/-- Register read `UM->registers[i]`. -/
def reg (s : universal_machine) (i : Nat) : Nat := s.registers.getD i 0

/-- Register write `UM->registers[i] = v`. -/
def setReg (s : universal_machine) (i v : Nat) : universal_machine :=
  { s with registers := s.registers.set i v }

/-- The backing array of segment `id`: the heap cell the spine points to. -/
def seg_backing (s : universal_machine) (id : Nat) : List Nat :=
  (hlookup s.heap (s.segments.getD id 0)).getD []

/-- Write to spine slot `i`, extending the spine when `i` is one past the
end (the C code writes `segments[num_segments]` after ensuring capacity). -/
def writeSlot (l : List Nat) (i v : Nat) : List Nat :=
  if i < l.length then l.set i v else l ++ List.replicate (i - l.length) 0 ++ [v]

/-- `new_UM`: zero registers, zero program counter, empty free-ID stack,
and the program installed as segment 0. -/
def new_UM (program_instructions : List Nat) : universal_machine :=
  { registers := List.replicate 8 0
    program_counter := 0
    unmapped_IDs := []
    segments := [0]
    num_segments := 1
    heap := [(0, program_instructions)]
    next_addr := 1 }

/-- `map_segment`: calloc a zeroed backing of `num_words + 1` words, store
the word count at index 0, then either reuse the top free identifier
(freeing the prior occupant's backing) or append at index `num_segments`.
Returns the updated machine and the returned identifier. -/
def map_segment (s : universal_machine) (num_words : Nat) :
    universal_machine × Nat :=
  let new_segment := num_words :: List.replicate num_words 0
  let addr := s.next_addr
  match s.unmapped_IDs with
  | [] =>
      ({ s with
          segments := writeSlot s.segments s.num_segments addr
          num_segments := s.num_segments + 1
          heap := (addr, new_segment) :: s.heap
          next_addr := addr + 1 }, s.num_segments)
  | available_ID :: rest =>
      let to_unmap := s.segments.getD available_ID 0
      ({ s with
          unmapped_IDs := rest
          segments := s.segments.set available_ID addr
          num_segments := s.num_segments + 1
          heap := (addr, new_segment) :: hfree s.heap to_unmap
          next_addr := addr + 1 }, available_ID)

/-- `unmap_segment`: pushes the identifier on the free stack; the backing
array is not freed here. -/
def unmap_segment (s : universal_machine) (segment_ID : Nat) :
    universal_machine :=
  { s with
      unmapped_IDs := segment_ID :: s.unmapped_IDs
      num_segments := s.num_segments - 1 }

abbrev UM_Reg := Nat

/-- `mod_limit` of `main.c` (2^32). -/
def mod_limit : Nat := 4294967296

/-- Opcode 0: if `R[C] != 0` then `R[A] := R[B]`. -/
def conditional_move (s : universal_machine) (A B C : UM_Reg) :
    universal_machine :=
  if reg s C ≠ 0 then setReg s A (reg s B) else s

/-- Opcode 1: `R[A] := segments[R[B]][R[C] + 1]`. -/
def segmented_load (s : universal_machine) (A B C : UM_Reg) :
    universal_machine :=
  let segment_ID := reg s B
  let offset := reg s C
  setReg s A ((seg_backing s segment_ID).getD (offset + 1) 0)

/-- Opcode 2: `segments[R[A]][R[B] + 1] := R[C]`. -/
def segmented_store (s : universal_machine) (A B C : UM_Reg) :
    universal_machine :=
  let segment_ID := reg s A
  let offset := reg s B
  { s with
      heap := hupdate s.heap (s.segments.getD segment_ID 0)
        ((seg_backing s segment_ID).set (offset + 1) (reg s C)) }

/-- Opcode 3: `R[A] := (R[B] + R[C]) % mod_limit`. -/
def addition (s : universal_machine) (A B C : UM_Reg) : universal_machine :=
  setReg s A ((reg s B + reg s C) % mod_limit)

/-- Opcode 4: `R[A] := (R[B] * R[C]) % mod_limit`. -/
def multiplication (s : universal_machine) (A B C : UM_Reg) :
    universal_machine :=
  setReg s A ((reg s B * reg s C) % mod_limit)

/-- Opcode 5: `R[A] := (R[B] / R[C]) % mod_limit`.  The C source divides
unconditionally; division by zero is undefined behavior in C, modelled as
`none`. -/
def division (s : universal_machine) (A B C : UM_Reg) :
    Option universal_machine :=
  if reg s C = 0 then none
  else some (setReg s A ((reg s B / reg s C) % mod_limit))

/-- Opcode 6: `R[A] := ~(R[B] & R[C])` on 32 bits. -/
def bitwise_nand (s : universal_machine) (A B C : UM_Reg) :
    universal_machine :=
  setReg s A ((reg s B &&& reg s C) ^^^ (mod_limit - 1))

/-- Opcode 8: `R[B] := map_segment(UM, R[C])`. -/
def map (s : universal_machine) (B C : UM_Reg) : universal_machine :=
  let p := map_segment s (reg s C)
  setReg p.1 B p.2

/-- Opcode 9: `unmap_segment(UM, R[C])`. -/
def unmap (s : universal_machine) (C : UM_Reg) : universal_machine :=
  unmap_segment s (reg s C)

/-- Opcode 10: `putchar(R[C])` appends the low 8 bits of `R[C]` to the
stdout stream. -/
def output (s : universal_machine) (C : UM_Reg) (stdout : List Nat) :
    List Nat :=
  stdout ++ [reg s C % 256]

/-- Opcode 11: `getchar` consumes one byte of the stdin stream; on EOF the
register receives `(uint32_t)~0 = 4294967295`. -/
def input (s : universal_machine) (C : UM_Reg) (stdin : List Nat) :
    universal_machine × List Nat :=
  match stdin with
  | [] => (setReg s C (mod_limit - 1), [])
  | b :: rest => (setReg s C b, rest)

/-- Opcode 12 helper: when `R[B] != 0`, malloc a deep copy of the first
`target[0] + 1` words of segment `R[B]`'s backing, free the old segment 0
backing, and point spine slot 0 at the copy. -/
def load_program (s : universal_machine) (B : UM_Reg) : universal_machine :=
  let reg_B_value := reg s B
  if reg_B_value ≠ 0 then
    let target_segment := seg_backing s reg_B_value
    let num_instructions := target_segment.getD 0 0
    let true_size := num_instructions + 1
    let deep_copy := (List.range true_size).map
      (fun i => target_segment.getD i 0)
    { s with
        heap := (s.next_addr, deep_copy) :: hfree s.heap (s.segments.getD 0 0)
        segments := s.segments.set 0 s.next_addr
        next_addr := s.next_addr + 1 }
  else s

/-- Opcode 13: `R[A] := value`. -/
def load_value (s : universal_machine) (A : UM_Reg) (value : Nat) :
    universal_machine :=
  setReg s A value

/-- The source's `shl` on `uint64_t`, with the shift-by-64 special case. -/
def shl (word bits : Nat) : Nat :=
  if bits = 64 then 0 else (word <<< bits) % 2 ^ 64

/-- The source's `shr` on `uint64_t`, with the shift-by-64 special case. -/
def shr (word bits : Nat) : Nat :=
  if bits = 64 then 0 else word >>> bits

/-- `Bitpack_fitsu`: `n` fits in `width` unsigned bits. -/
def Bitpack_fitsu (n width : Nat) : Bool :=
  shr n width == 0

/-- `Bitpack_newu`: replace the `width`-bit field at `lsb`; `none` models
the `RAISE(Bitpack_Overflow)` path when the value does not fit. -/
def Bitpack_newu (word width lsb value : Nat) : Option Nat :=
  let hi := lsb + width
  if Bitpack_fitsu value width then
    some (shl (shr word hi) hi |||
          shr (shl word (64 - lsb)) (64 - lsb) |||
          (value <<< lsb) % 2 ^ 64)
  else none

/-- `Bitpack_getu`: extract the `width`-bit field at `lsb`. -/
def Bitpack_getu (word width lsb : Nat) : Nat :=
  let hi := lsb + width
  shr (shl word (64 - hi)) (64 - width)

/-- The `read_program_file` loop body: four file bytes are packed
big-endian into one word via `Bitpack_newu` at lsb 24, 16, 8, 0.  A group
cut short by EOF feeds `EOF` to `Bitpack_newu`, whose fit check fails
(`RAISE`), modelled as `none`. -/
def read_words : List Nat → Option (List Nat)
  | [] => some []
  | b0 :: b1 :: b2 :: b3 :: rest => do
      let w1 ← Bitpack_newu 0 8 24 b0
      let w2 ← Bitpack_newu w1 8 16 b1
      let w3 ← Bitpack_newu w2 8 8 b2
      let w4 ← Bitpack_newu w3 8 0 b3
      let ws ← read_words rest
      some (w4 :: ws)
  | _ => none

/-- `read_program_file`: the words are stored at backing indices 1.., the
word count is stored at index 0, and the result becomes segment 0 of a
fresh machine. -/
def read_program_file (bytes : List Nat) : Option universal_machine :=
  (read_words bytes).map (fun ws => new_UM (ws.length :: ws))

/-- One interpreter configuration: the machine plus the byte streams. -/
structure Config where
  um : universal_machine
  stdin : List Nat
  stdout : List Nat
  stderr : List Char
deriving DecidableEq

/-- Result of one trip around the `run_program` loop. -/
inductive StepResult where
  | running (c : Config)
  | halted (c : Config)
  | undef (c : Config)
deriving DecidableEq

/-- Instruction fetch: `segment_zero[UM->program_counter + 1]`. -/
def fetch (s : universal_machine) : Nat :=
  (seg_backing s 0).getD (s.program_counter + 1) 0

/-- The `UM->program_counter++` at the bottom of the loop. -/
def bump (s : universal_machine) : universal_machine :=
  { s with program_counter := s.program_counter + 1 }

/-- One iteration of the `while (true)` loop of `run_program`: fetch,
decode the 4-bit opcode at bit 28, dispatch, then either set the program
counter to `R[C]` (opcode 12) or increment it; opcode 7 returns.  Opcodes
with no `switch` case (14, 15) fall through to the increment. -/
def step (c : Config) : StepResult :=
  let s := c.um
  let word := fetch s
  let OP_CODE := Bitpack_getu word 4 28
  if OP_CODE = 7 then .halted c
  else if OP_CODE = 13 then
    let A := Bitpack_getu word 3 25
    let load_val := Bitpack_getu word 25 0
    .running { c with um := bump (load_value s A load_val) }
  else
    let A := Bitpack_getu word 3 6
    let B := Bitpack_getu word 3 3
    let C := Bitpack_getu word 3 0
    match OP_CODE with
    | 0 => .running { c with um := bump (conditional_move s A B C) }
    | 1 => .running { c with um := bump (segmented_load s A B C) }
    | 2 => .running { c with um := bump (segmented_store s A B C) }
    | 3 => .running { c with um := bump (addition s A B C) }
    | 4 => .running { c with um := bump (multiplication s A B C) }
    | 5 =>
      match division s A B C with
      | none => .undef c
      | some s2 => .running { c with um := bump s2 }
    | 6 => .running { c with um := bump (bitwise_nand s A B C) }
    | 8 => .running { c with um := bump (map s B C) }
    | 9 => .running { c with um := bump (unmap s C) }
    | 10 => .running { c with um := bump s, stdout := output s C c.stdout }
    | 11 =>
      let p := input s C c.stdin
      .running { c with um := bump p.1, stdin := p.2 }
    | 12 =>
      let s2 := load_program s B
      .running { c with um := { s2 with program_counter := reg s2 C } }
    | _ => .running { c with um := bump s }

/-- Result of a bounded run of the loop. -/
inductive RunResult where
  | halted (c : Config)
  | undef (c : Config)
  | out_of_fuel (c : Config)
deriving DecidableEq

/-- The configuration carried by a `RunResult`. -/
def RunResult.config : RunResult → Config
  | .halted c => c
  | .undef c => c
  | .out_of_fuel c => c

/-- Fuel-bounded iteration of `step`. -/
def run : Nat → Config → RunResult
  | 0, c => .out_of_fuel c
  | fuel + 1, c =>
    match step c with
    | .running c2 => run fuel c2
    | .halted c2 => .halted c2
    | .undef c2 => .undef c2

/-- The debug line `run_program` prints to stderr before the loop. -/
def poopy_line : List Char := "POOPY BUTT\n".toList

/-- `run_program`: emit the stderr debug line once, then loop. -/
def run_program (fuel : Nat) (c : Config) : RunResult :=
  run fuel { c with stderr := c.stderr ++ poopy_line }

/-- The configuration carried by a `StepResult`. -/
def StepResult.config : StepResult → Config
  | .running c => c
  | .halted c => c
  | .undef c => c

/-- A configuration about to execute the word `0x5000000A` (opcode 5,
A=0, B=1, C=2) with `R[1] = 7` and `R[2] = 0`: a division by zero. -/
def divzero_config : Config :=
  { um := { registers := [0, 7, 0, 0, 0, 0, 0, 0]
            program_counter := 0
            unmapped_IDs := []
            segments := [0]
            num_segments := 1
            heap := [(0, [1, 0x5000000A])]
            next_addr := 1 }
    stdin := []
    stdout := []
    stderr := [] }

/-- A configuration about to execute the word `0xA0000001` (opcode 10,
C=1) with `R[1] = 256`: an Output of a value larger than 255. -/
def out256_config : Config :=
  { um := { registers := [0, 256, 0, 0, 0, 0, 0, 0]
            program_counter := 0
            unmapped_IDs := []
            segments := [0]
            num_segments := 1
            heap := [(0, [1, 0xA0000001])]
            next_addr := 1 }
    stdin := []
    stdout := []
    stderr := [] }

/-- A machine with one extra mapped segment (id 1, two words) and with
registers arranged for a store/load round trip: `R[0] = 1` (id),
`R[1] = 0` (offset), `R[2] = 77` (value), `R[4] = 1`, `R[5] = 0`. -/
def um_roundtrip : universal_machine :=
  { registers := [1, 0, 77, 0, 1, 0, 0, 0]
    program_counter := 0
    unmapped_IDs := []
    segments := [0, 5]
    num_segments := 2
    heap := [(0, [1, 0]), (5, [2, 0, 0])]
    next_addr := 6 }

/-- A machine whose free-identifier stack holds id 2 (its slot still
points at a stale backing at address 7). -/
def um_pool : universal_machine :=
  { registers := [0, 0, 0, 0, 0, 0, 0, 0]
    program_counter := 0
    unmapped_IDs := [2]
    segments := [0, 5, 7]
    num_segments := 2
    heap := [(0, [1, 0]), (5, [1, 0]), (7, [1, 0])]
    next_addr := 8 }

/-- A configuration about to execute `0xC0000018` (opcode 12, B=3, C=0)
with `R[3] = 1`; segment 1 holds the two words 9, 9. -/
def cfg_loadprog : Config :=
  { um := { registers := [0, 0, 0, 1, 0, 0, 0, 0]
            program_counter := 0
            unmapped_IDs := []
            segments := [0, 5]
            num_segments := 2
            heap := [(0, [1, 0xC0000018]), (5, [2, 9, 9])]
            next_addr := 6 }
    stdin := []
    stdout := []
    stderr := [] }

/-- A configuration about to execute `0xC0000018` (opcode 12, B=3, C=0)
with `R[3] = 0`: a Load Program that performs no duplication. -/
def cfg_loadprog0 : Config :=
  { um := { registers := [0, 0, 0, 0, 0, 0, 0, 0]
            program_counter := 0
            unmapped_IDs := []
            segments := [0]
            num_segments := 1
            heap := [(0, [1, 0xC0000018])]
            next_addr := 1 }
    stdin := []
    stdout := []
    stderr := [] }

/-- A configuration about to execute `0xE0000000` (opcode 14). -/
def cfg_unknown : Config :=
  { um := new_UM [1, 0xE0000000]
    stdin := []
    stdout := []
    stderr := [] }

/-- A configuration whose program halts immediately. -/
def cfg_halt : Config :=
  { um := new_UM [1, 0x70000000]
    stdin := []
    stdout := []
    stderr := [] }

/-- VM-visible contents of segment `id` (spec-side view): the backing
array without its length header. -/
def view (s : universal_machine) (id : Nat) : List Nat :=
  (seg_backing s id).drop 1

/-- Representation invariant: every backing array held by the heap stores
at index 0 the count of the VM-visible words that follow it. -/
def SegInv (s : universal_machine) : Prop :=
  ∀ a back, hlookup s.heap a = some back → back.length = back.getD 0 0 + 1

/-- Spec-side decoder, modelled from the spec's words: each consecutive
4-byte group `b0 b1 b2 b3` is read as the big-endian word
`(b0<<24)|(b1<<16)|(b2<<8)|b3`. -/
def decode_be : List Nat → List Nat
  | b0 :: b1 :: b2 :: b3 :: rest =>
      ((b0 <<< 24) ||| (b1 <<< 16) ||| (b2 <<< 8) ||| b3) :: decode_be rest
  | _ => []

theorem or_eq_add (k : Nat) :
    ∀ x y : Nat, x % 2 ^ k = 0 → y < 2 ^ k → x ||| y = x + y := by
  induction k with
  | zero =>
    intro x y hx hy
    interval_cases y
    simp
  | succ k ih =>
    intro x y hx hy
    have hpow : 2 ^ (k + 1) = 2 * 2 ^ k := by ring
    obtain ⟨q, hq⟩ := Nat.dvd_of_mod_eq_zero hx
    rw [hpow] at hq hy
    rw [mul_assoc] at hq
    have hxd : x / 2 = 2 ^ k * q := by omega
    have hx2 : (x / 2) % 2 ^ k = 0 := by
      rw [hxd]
      exact Nat.mul_mod_right _ _
    have hy2 : y / 2 < 2 ^ k := by omega
    have ihx := ih (x / 2) (y / 2) hx2 hy2
    have hxe : x % 2 = 0 := by omega
    have hdx : Nat.bit (x.testBit 0) (x >>> 1) = x :=
      Nat.bit_testBit_zero_shiftRight_one x
    have hdy : Nat.bit (y.testBit 0) (y >>> 1) = y :=
      Nat.bit_testBit_zero_shiftRight_one y
    have hbx : x.testBit 0 = false := by
      simp [Nat.testBit_zero]
      omega
    have h1 : x ||| y =
        Nat.bit (x.testBit 0 || y.testBit 0) ((x >>> 1) ||| (y >>> 1)) := by
      conv_lhs => rw [← hdx, ← hdy]
      rw [Nat.lor_bit]
    rw [hbx] at h1
    simp only [Bool.false_or] at h1
    rw [Nat.shiftRight_one, Nat.shiftRight_one] at h1
    rw [ihx] at h1
    rw [Nat.bit_val] at h1
    have hby : (y.testBit 0).toNat = y % 2 := by
      rcases Bool.eq_false_or_eq_true (y.testBit 0) with h | h <;>
        simp [h, Nat.testBit_zero] at * <;> omega
    omega

theorem hlookup_cons (b : Nat) (v : List Nat) (t : List (Nat × List Nat))
    (a : Nat) :
    hlookup ((b, v) :: t) a = if b = a then some v else hlookup t a := rfl

theorem hlookup_hfree (h : List (Nat × List Nat)) (a b : Nat) :
    hlookup (hfree h a) b = if a = b then none else hlookup h b := by
  induction h with
  | nil => simp [hfree, hlookup]
  | cons p t ih =>
    obtain ⟨x, v⟩ := p
    by_cases hxa : x = a
    · subst hxa
      have h1 : hfree ((x, v) :: t) x = hfree t x := by simp [hfree]
      rw [h1, ih]
      by_cases hxb : x = b
      · subst hxb
        simp [hlookup]
      · simp [hlookup, hxb]
    · have h1 : hfree ((x, v) :: t) a = (x, v) :: hfree t a := by
        simp [hfree, hxa]
      rw [h1]
      by_cases hxb : x = b
      · subst hxb
        have hax : a ≠ x := fun hh => hxa hh.symm
        simp [hlookup, hax]
      · simp [hlookup, hxb, ih]

theorem hlookup_hupdate (h : List (Nat × List Nat)) (a b : Nat)
    (v : List Nat) :
    hlookup (hupdate h a v) b =
      if a = b then (hlookup h a).map (fun _ => v) else hlookup h b := by
  induction h with
  | nil => simp [hupdate, hlookup]
  | cons p t ih =>
    obtain ⟨x, w⟩ := p
    by_cases hxa : x = a
    · subst hxa
      simp only [hupdate, if_pos rfl]
      by_cases hxb : x = b
      · subst hxb
        simp [hlookup]
      · simp [hlookup, hxb]
    · simp only [hupdate, if_neg hxa, hlookup, ih]
      by_cases hxb : x = b
      · subst hxb
        have hab : a ≠ x := fun hh => hxa hh.symm
        simp [hab, hxa]
      · simp [hxb]

theorem getD_set_self (l : List Nat) (i v d : Nat) (h : i < l.length) :
    (l.set i v).getD i d = v := by
  induction l generalizing i with
  | nil => simp at h
  | cons x xs ih =>
    cases i with
    | zero => rfl
    | succ j =>
      simp only [List.set, List.getD, List.get?]
      exact ih j (by simpa using h)

theorem getD_set_ne (l : List Nat) (i j v d : Nat) (h : i ≠ j) :
    (l.set i v).getD j d = l.getD j d := by
  induction l generalizing i j with
  | nil => simp [List.set]
  | cons x xs ih =>
    cases i with
    | zero =>
      cases j with
      | zero => exact absurd rfl h
      | succ k => rfl
    | succ i2 =>
      cases j with
      | zero => rfl
      | succ k =>
        simp only [List.set, List.getD, List.get?]
        exact ih i2 k (by omega)

theorem getD_concat_self (l : List Nat) (v d : Nat) :
    (l ++ [v]).getD l.length d = v := by
  induction l with
  | nil => rfl
  | cons x xs ih => exact ih

theorem getD_drop_one (l : List Nat) (i d : Nat) :
    (l.drop 1).getD i d = l.getD (i + 1) d := by
  cases l with
  | nil => rfl
  | cons x xs => rfl

theorem map_getD_range (l : List Nat) :
    (List.range l.length).map (fun i => l.getD i 0) = l := by
  induction l with
  | nil => rfl
  | cons x xs ih =>
    rw [List.length_cons, List.range_succ_eq_map, List.map_cons,
      List.map_map]
    refine congrArg₂ _ rfl ?_
    have h2 : ((fun i => (x :: xs).getD i 0) ∘ Nat.succ) =
        fun i => xs.getD i 0 := by
      funext i
      rfl
    rw [h2, ih]

/-- C7: opcode 11 (Input) reads one byte from standard input into `R[C]`,
stored unchanged, and when stdin is exhausted (EOF) it sets
`R[C] := 0xFFFFFFFF` (all ones); the rest of the stream is untouched. -/
theorem input_reads_byte_or_eof (s : universal_machine) (C : UM_Reg)
    (b : Nat) (rest : List Nat) (hC : C < s.registers.length) :
    reg (input s C (b :: rest)).1 C = b ∧
    (input s C (b :: rest)).2 = rest ∧
    reg (input s C []).1 C = 4294967295 ∧
    (input s C []).2 = [] := by
  refine ⟨?_, rfl, ?_, rfl⟩
  · show (s.registers.set C b).getD C 0 = b
    exact getD_set_self _ _ _ _ hC
  · show (s.registers.set C (mod_limit - 1)).getD C 0 = 4294967295
    rw [getD_set_self _ _ _ _ hC]
    rfl

/-- Witness for `input_reads_byte_or_eof` at a concrete machine, register
index 0 and input byte 90. -/
theorem input_reads_byte_or_eof_witness :
    (0 < (new_UM [1, 0]).registers.length) ∧
    (reg (input (new_UM [1, 0]) 0 (90 :: [])).1 0 = 90 ∧
     (input (new_UM [1, 0]) 0 (90 :: [])).2 = [] ∧
     reg (input (new_UM [1, 0]) 0 []).1 0 = 4294967295 ∧
     (input (new_UM [1, 0]) 0 []).2 = []) :=
  ⟨by decide, input_reads_byte_or_eof (new_UM [1, 0]) 0 90 [] (by decide)⟩

/-- C3: the source's `division` computes `R[B] / R[C]` with no check, so
with `R[C] = 0` it has no defined result (undefined behavior in C, `none`
in the model), and the dispatch loop has no defined successor state:
at `divzero_config` (opcode 5 with `R[2] = 0`) the step is `undef`, not a
checked fatal-error exit. -/
theorem division_by_zero_is_undefined :
    division divzero_config.um 0 1 2 = none ∧
    step divzero_config = .undef divzero_config := by
  constructor
  · rfl
  · rfl

/-- C4: the source's `output` is a bare `putchar(R[C])` with no range
check: at `out256_config` (opcode 10 with `R[1] = 256`) the interpreter
writes the low 8 bits (byte 0) and keeps running with the program counter
incremented, instead of failing fatally for a value above 255. -/
theorem output_256_writes_low_byte_and_continues :
    step out256_config =
      .running { out256_config with
                  um := bump out256_config.um
                  stdout := [0] } := by
  rfl

/-- C6: storing `v = R[C]` through a mapped identifier at an in-range
offset and loading the same cell back yields `v`.  The store names the
segment through `R[A]` and the offset through `R[B]`; the load names them
through `R[B2]` and `R[C2]`. -/
theorem store_load_roundtrip (s : universal_machine)
    (A B C A2 B2 C2 : UM_Reg) (back : List Nat)
    (hA2 : A2 < s.registers.length)
    (hid : reg s B2 = reg s A) (hoff : reg s C2 = reg s B)
    (hback : hlookup s.heap (s.segments.getD (reg s A) 0) = some back)
    (hlen : back.length = back.getD 0 0 + 1)
    (hrange : reg s B < back.getD 0 0) :
    reg (segmented_load (segmented_store s A B C) A2 B2 C2) A2 = reg s C := by
  have hbound : reg s B + 1 < back.length := by omega
  have hsb0 : seg_backing s (reg s A) = back := by
    unfold seg_backing
    rw [hback]
    rfl
  have hsb : seg_backing (segmented_store s A B C) (reg s A) =
      back.set (reg s B + 1) (reg s C) := by
    show (hlookup (hupdate s.heap (s.segments.getD (reg s A) 0)
        ((seg_backing s (reg s A)).set (reg s B + 1) (reg s C)))
        (s.segments.getD (reg s A) 0)).getD [] =
      back.set (reg s B + 1) (reg s C)
    rw [hlookup_hupdate, if_pos rfl, hback, hsb0]
    rfl
  have hregeq : ∀ i, reg (segmented_store s A B C) i = reg s i :=
    fun i => rfl
  show ((segmented_store s A B C).registers.set A2
      ((seg_backing (segmented_store s A B C)
        (reg (segmented_store s A B C) B2)).getD
        (reg (segmented_store s A B C) C2 + 1) 0)).getD A2 0 = reg s C
  rw [hregeq B2, hregeq C2, hid, hoff, hsb]
  have hregs : (segmented_store s A B C).registers = s.registers := rfl
  rw [hregs, getD_set_self _ _ _ _ hA2]
  exact getD_set_self _ _ _ _ hbound

/-- Witness for `store_load_roundtrip` on `um_roundtrip`: id 1, offset 0,
value 77, read back through registers 4 and 5 into register 3. -/
theorem store_load_roundtrip_witness :
    (3 < um_roundtrip.registers.length ∧
     reg um_roundtrip 4 = reg um_roundtrip 0 ∧
     reg um_roundtrip 5 = reg um_roundtrip 1 ∧
     hlookup um_roundtrip.heap
       (um_roundtrip.segments.getD (reg um_roundtrip 0) 0) =
         some [2, 0, 0] ∧
     ([2, 0, 0] : List Nat).length = ([2, 0, 0] : List Nat).getD 0 0 + 1 ∧
     reg um_roundtrip 1 < ([2, 0, 0] : List Nat).getD 0 0) ∧
    reg (segmented_load (segmented_store um_roundtrip 0 1 2) 3 4 5) 3 =
      reg um_roundtrip 2 :=
  ⟨by decide,
   store_load_roundtrip um_roundtrip 0 1 2 3 4 5 [2, 0, 0] (by decide)
     (by decide) (by decide) (by decide) (by decide) (by decide)⟩

/-- C9: a fetched word whose 4-bit opcode field is 14 or 15 does not trap:
the dispatch falls through every `switch` case, so the step leaves the
registers, the segments, the heap and the free-identifier stack unchanged,
increments the program counter, and keeps running. -/
theorem unknown_opcode_no_trap (c : Config)
    (hop : Bitpack_getu (fetch c.um) 4 28 = 14 ∨
           Bitpack_getu (fetch c.um) 4 28 = 15) :
    step c = .running { c with um := bump c.um } := by
  rcases hop with h | h <;>
    (simp only [step, h]) <;> rfl

/-- Witness for `unknown_opcode_no_trap` at `cfg_unknown`, whose fetched
word `0xE0000000` has opcode 14. -/
theorem unknown_opcode_no_trap_witness :
    (Bitpack_getu (fetch cfg_unknown.um) 4 28 = 14 ∨
     Bitpack_getu (fetch cfg_unknown.um) 4 28 = 15) ∧
    step cfg_unknown = .running { cfg_unknown with um := bump cfg_unknown.um } :=
  ⟨Or.inl (by decide), unknown_opcode_no_trap cfg_unknown (Or.inl (by decide))⟩

theorem step_config_stderr (c : Config) :
    ((step c).config).stderr = c.stderr := by
  simp only [step]
  repeat' split
  all_goals rfl

theorem run_config_stderr (fuel : Nat) :
    ∀ c : Config, ((run fuel c).config).stderr = c.stderr := by
  induction fuel with
  | zero => intro c; rfl
  | succ n ih =>
    intro c
    have hs := step_config_stderr c
    unfold run
    rcases hstep : step c with c2 | c2 | c2 <;>
      rw [hstep] at hs <;>
      simp only [StepResult.config] at hs
    · show (run n c2).config.stderr = c.stderr
      rw [ih c2]
      exact hs
    · exact hs
    · exact hs

/-- C10: starting with an empty stderr, `run_program` writes the line
"POOPY BUTT" plus newline to stderr exactly once, before the first
instruction, for every program, every fuel bound, and every stdin — the
loop itself never writes stderr, so the final stderr is exactly that
line. -/
theorem run_program_prints_poopy (fuel : Nat) (c : Config)
    (h : c.stderr = []) :
    ((run_program fuel c).config).stderr = poopy_line := by
  unfold run_program
  rw [run_config_stderr]
  simp [h]

/-- Witness for `run_program_prints_poopy` on the immediately-halting
program of `cfg_halt`. -/
theorem run_program_prints_poopy_witness :
    cfg_halt.stderr = [] ∧
    ((run_program 1 cfg_halt).config).stderr = poopy_line :=
  ⟨rfl, run_program_prints_poopy 1 cfg_halt rfl⟩

/-- C1: `map_segment(n)` pops the most recently pushed free identifier
`r` when the pool is non-empty, frees the prior occupant's backing,
installs a freshly zeroed segment of `n` words at `r` (backing
`n :: replicate n 0`), and returns `r`; with an empty pool it installs the
fresh segment at identifier `segments.length`, the previous highest-used
identifier plus 1 (which is 1 when only segment 0 exists).  The returned
identifier is never 0.  Hypotheses are the reachable-state invariants:
with an empty pool `num_segments` equals the spine length, `num_segments`
is positive, and pooled identifiers are nonzero in-spine slots whose
addresses predate `next_addr`. -/
theorem map_segment_spec (s : universal_machine) (n : Nat)
    (hnum : s.unmapped_IDs = [] → s.num_segments = s.segments.length)
    (hpos : 0 < s.num_segments)
    (hpool : ∀ id ∈ s.unmapped_IDs,
      id ≠ 0 ∧ id < s.segments.length ∧
      s.segments.getD id 0 < s.next_addr) :
    (map_segment s n).2 ≠ 0 ∧
    hlookup (map_segment s n).1.heap
        ((map_segment s n).1.segments.getD (map_segment s n).2 0) =
      some (n :: List.replicate n 0) ∧
    (∀ r rest, s.unmapped_IDs = r :: rest →
      (map_segment s n).2 = r ∧
      (map_segment s n).1.unmapped_IDs = rest ∧
      hlookup (map_segment s n).1.heap (s.segments.getD r 0) = none) ∧
    (s.unmapped_IDs = [] →
      (map_segment s n).2 = s.segments.length ∧
      (map_segment s n).1.segments.length = s.segments.length + 1) := by
  rcases hpl : s.unmapped_IDs with _ | ⟨r, rest⟩
  · have hn := hnum hpl
    have hms : map_segment s n =
        ({ s with
            segments := writeSlot s.segments s.num_segments s.next_addr
            num_segments := s.num_segments + 1
            heap := (s.next_addr, n :: List.replicate n 0) :: s.heap
            next_addr := s.next_addr + 1 }, s.num_segments) := by
      unfold map_segment
      rw [hpl]
    have hws : writeSlot s.segments s.num_segments s.next_addr =
        s.segments ++ [s.next_addr] := by
      unfold writeSlot
      rw [hn]
      simp
    rw [hms]
    refine ⟨by omega, ?_, ?_, ?_⟩
    · show hlookup ((s.next_addr, n :: List.replicate n 0) :: s.heap)
        ((writeSlot s.segments s.num_segments s.next_addr).getD
          s.num_segments 0) = some (n :: List.replicate n 0)
      rw [hws, hn, getD_concat_self, hlookup_cons, if_pos rfl]
    · intro r rest h
      exact absurd h (by simp)
    · intro _
      constructor
      · show s.num_segments = s.segments.length
        exact hn
      · show (writeSlot s.segments s.num_segments s.next_addr).length =
          s.segments.length + 1
        rw [hws]
        simp
  · have hmem : r ∈ s.unmapped_IDs := by
      rw [hpl]
      exact List.mem_cons_self r rest
    obtain ⟨hr0, hrlen, hrfresh⟩ := hpool r hmem
    have hms : map_segment s n =
        ({ s with
            unmapped_IDs := rest
            segments := s.segments.set r s.next_addr
            num_segments := s.num_segments + 1
            heap := (s.next_addr, n :: List.replicate n 0) ::
              hfree s.heap (s.segments.getD r 0)
            next_addr := s.next_addr + 1 }, r) := by
      unfold map_segment
      rw [hpl]
    rw [hms]
    refine ⟨hr0, ?_, ?_, ?_⟩
    · show hlookup ((s.next_addr, n :: List.replicate n 0) ::
          hfree s.heap (s.segments.getD r 0))
        ((s.segments.set r s.next_addr).getD r 0) =
        some (n :: List.replicate n 0)
      rw [getD_set_self _ _ _ _ hrlen, hlookup_cons, if_pos rfl]
    · intro r2 rest2 h
      injection h with h1 h2
      subst h1
      subst h2
      refine ⟨rfl, rfl, ?_⟩
      show hlookup ((s.next_addr, n :: List.replicate n 0) ::
          hfree s.heap (s.segments.getD r 0)) (s.segments.getD r 0) = none
      rw [hlookup_cons, if_neg (by omega), hlookup_hfree, if_pos rfl]
    · intro h
      exact absurd h (by simp)

/-- Witness for `map_segment_spec` at `um_pool` (free pool holding id 2)
with `n = 3`. -/
theorem map_segment_spec_witness :
    ((um_pool.unmapped_IDs = [] →
        um_pool.num_segments = um_pool.segments.length) ∧
     0 < um_pool.num_segments ∧
     (∀ id ∈ um_pool.unmapped_IDs,
       id ≠ 0 ∧ id < um_pool.segments.length ∧
       um_pool.segments.getD id 0 < um_pool.next_addr)) ∧
    ((map_segment um_pool 3).2 ≠ 0 ∧
     hlookup (map_segment um_pool 3).1.heap
         ((map_segment um_pool 3).1.segments.getD (map_segment um_pool 3).2 0) =
       some (3 :: List.replicate 3 0) ∧
     (∀ r rest, um_pool.unmapped_IDs = r :: rest →
       (map_segment um_pool 3).2 = r ∧
       (map_segment um_pool 3).1.unmapped_IDs = rest ∧
       hlookup (map_segment um_pool 3).1.heap
         (um_pool.segments.getD r 0) = none) ∧
     (um_pool.unmapped_IDs = [] →
       (map_segment um_pool 3).2 = um_pool.segments.length ∧
       (map_segment um_pool 3).1.segments.length =
         um_pool.segments.length + 1)) :=
  ⟨⟨by decide, by decide, by decide⟩,
   map_segment_spec um_pool 3 (by decide) (by decide) (by decide)⟩

/-- C2: executing opcode 12 (Load Program) sets the program counter to
`R[C]`, with no additional increment, in both cases.  When `R[B] != 0`
and the source segment is mapped, segment 0 is replaced by a fresh deep
copy of segment `R[B]`: same contents, stored at a new address distinct
from the source's address, so a later `segmented_store` through
identifier `R[B]` does not alter segment 0 and a store through
identifier 0 does not alter the source; the old segment 0 backing is
freed.  When `R[B] = 0` no duplication is performed: the machine is
unchanged except for the program counter, which still becomes `R[C]`.
Hypotheses beyond the decoded fields are reachable-state invariants,
those about the source segment assumed only when `R[B] != 0`: the source
backing is mapped with a correct length header, spine addresses predate
`next_addr`, segments 0 and `R[B]` have distinct backing addresses, and
the spine is non-empty. -/
theorem load_program_step_spec (c : Config) (B C : Nat) (back : List Nat)
    (hB : B = Bitpack_getu (fetch c.um) 3 3)
    (hC : C = Bitpack_getu (fetch c.um) 3 0)
    (hop : Bitpack_getu (fetch c.um) 4 28 = 12)
    (hsrc : reg c.um B ≠ 0 →
      hlookup c.um.heap (c.um.segments.getD (reg c.um B) 0) = some back)
    (hlen : back.length = back.getD 0 0 + 1)
    (hfr_src : c.um.segments.getD (reg c.um B) 0 < c.um.next_addr)
    (hfr_old : c.um.segments.getD 0 0 < c.um.next_addr)
    (hsrc_old : reg c.um B ≠ 0 →
      c.um.segments.getD (reg c.um B) 0 ≠ c.um.segments.getD 0 0)
    (hsp : 0 < c.um.segments.length) :
    step c = .running { c with um :=
      { load_program c.um B with program_counter := reg c.um C } } ∧
    (load_program c.um B).registers = c.um.registers ∧
    (reg c.um B = 0 →
      load_program c.um B = c.um ∧
      step c = .running { c with um :=
        { c.um with program_counter := reg c.um C } }) ∧
    (reg c.um B ≠ 0 →
      seg_backing (load_program c.um B) 0 = back ∧
      (load_program c.um B).segments.getD 0 0 = c.um.next_addr ∧
      (load_program c.um B).segments.getD (reg c.um B) 0 =
        c.um.segments.getD (reg c.um B) 0 ∧
      c.um.next_addr ≠ c.um.segments.getD (reg c.um B) 0 ∧
      seg_backing (load_program c.um B) (reg c.um B) = back ∧
      hlookup (load_program c.um B).heap (c.um.segments.getD 0 0) = none ∧
      (∀ A2 B2 C2, reg c.um A2 = reg c.um B →
        seg_backing (segmented_store (load_program c.um B) A2 B2 C2) 0 =
          seg_backing (load_program c.um B) 0) ∧
      (∀ A2 B2 C2, reg c.um A2 = 0 →
        seg_backing (segmented_store (load_program c.um B) A2 B2 C2)
            (reg c.um B) =
          seg_backing (load_program c.um B) (reg c.um B))) ∧
    (∀ B2, reg c.um B2 = 0 → load_program c.um B2 = c.um) := by
  have hregs : (load_program c.um B).registers = c.um.registers := by
    simp only [load_program]
    split <;> rfl
  have hnoop : ∀ B2, reg c.um B2 = 0 → load_program c.um B2 = c.um := by
    intro B2 h
    simp [load_program, h]
  have hstep : step c = .running { c with um :=
      { load_program c.um B with program_counter := reg c.um C } } := by
    subst hB
    subst hC
    simp only [step, hop]
    have hr : reg (load_program c.um (Bitpack_getu (fetch c.um) 3 3))
        (Bitpack_getu (fetch c.um) 3 0) =
        reg c.um (Bitpack_getu (fetch c.um) 3 0) := by
      unfold reg
      rw [hregs]
    rw [hr]
    rfl
  refine ⟨hstep, hregs, ?_, ?_, hnoop⟩
  · intro hz
    refine ⟨hnoop B hz, ?_⟩
    have h2 := hstep
    rw [hnoop B hz] at h2
    exact h2
  · intro hRB
    have hsrc2 := hsrc hRB
    have hso := hsrc_old hRB
    have htgt : seg_backing c.um (reg c.um B) = back := by
      unfold seg_backing
      rw [hsrc2]
      rfl
    have hdc : (List.range ((seg_backing c.um (reg c.um B)).getD 0 0 + 1)).map
        (fun i => (seg_backing c.um (reg c.um B)).getD i 0) = back := by
      rw [htgt, ← hlen, map_getD_range]
    have hlp : load_program c.um B =
        { c.um with
            segments := c.um.segments.set 0 c.um.next_addr
            heap := (c.um.next_addr, back) ::
              hfree c.um.heap (c.um.segments.getD 0 0)
            next_addr := c.um.next_addr + 1 } := by
      simp only [load_program]
      rw [if_pos hRB, hdc]
    have hsp0 : (load_program c.um B).segments.getD 0 0 = c.um.next_addr := by
      rw [hlp]
      exact getD_set_self _ _ _ _ hsp
    have hspB : (load_program c.um B).segments.getD (reg c.um B) 0 =
        c.um.segments.getD (reg c.um B) 0 := by
      rw [hlp]
      exact getD_set_ne _ _ _ _ _ (fun h => hRB h.symm)
    have hsb0 : seg_backing (load_program c.um B) 0 = back := by
      unfold seg_backing
      rw [hsp0, hlp]
      show (hlookup ((c.um.next_addr, back) ::
        hfree c.um.heap (c.um.segments.getD 0 0)) c.um.next_addr).getD [] =
        back
      rw [hlookup_cons, if_pos rfl]
      rfl
    have hsbB : seg_backing (load_program c.um B) (reg c.um B) = back := by
      unfold seg_backing
      rw [hspB, hlp]
      show (hlookup ((c.um.next_addr, back) ::
        hfree c.um.heap (c.um.segments.getD 0 0))
          (c.um.segments.getD (reg c.um B) 0)).getD [] = back
      rw [hlookup_cons, if_neg (by omega), hlookup_hfree,
        if_neg (fun h => hso h.symm), hsrc2]
      rfl
    have hfreed : hlookup (load_program c.um B).heap
        (c.um.segments.getD 0 0) = none := by
      rw [hlp]
      show hlookup ((c.um.next_addr, back) ::
        hfree c.um.heap (c.um.segments.getD 0 0))
          (c.um.segments.getD 0 0) = none
      rw [hlookup_cons, if_neg (by omega), hlookup_hfree, if_pos rfl]
    refine ⟨hsb0, hsp0, hspB, by omega, hsbB, hfreed, ?_, ?_⟩
    · intro A2 B2 C2 hA2
      unfold seg_backing
      have hregs2 : reg (load_program c.um B) A2 = reg c.um B := by
        unfold reg
        rw [hregs]
        exact hA2
      show (hlookup (hupdate (load_program c.um B).heap
          ((load_program c.um B).segments.getD
            (reg (load_program c.um B) A2) 0) _)
          ((load_program c.um B).segments.getD 0 0)).getD [] = _
      rw [hregs2, hspB, hlookup_hupdate, if_neg (by omega), hsp0]
    · intro A2 B2 C2 hA2
      unfold seg_backing
      have hregs2 : reg (load_program c.um B) A2 = 0 := by
        unfold reg
        rw [hregs]
        exact hA2
      show (hlookup (hupdate (load_program c.um B).heap
          ((load_program c.um B).segments.getD
            (reg (load_program c.um B) A2) 0) _)
          ((load_program c.um B).segments.getD (reg c.um B) 0)).getD [] = _
      rw [hregs2, hsp0, hlookup_hupdate, if_neg (by omega), hspB]

/-- Witness for `load_program_step_spec`, applied twice: at `cfg_loadprog`
(opcode-12 word `0xC0000018`, B=3, C=0, `R[3] = 1`, source segment backing
`[2, 9, 9]`) for the duplication case, and at `cfg_loadprog0` (same word
with `R[3] = 0`) for the no-duplication case, whose program counter is
still set to `R[C]`. -/
theorem load_program_step_spec_witness :
    (3 = Bitpack_getu (fetch cfg_loadprog.um) 3 3 ∧
     0 = Bitpack_getu (fetch cfg_loadprog.um) 3 0 ∧
     Bitpack_getu (fetch cfg_loadprog.um) 4 28 = 12 ∧
     (reg cfg_loadprog.um 3 ≠ 0 →
       hlookup cfg_loadprog.um.heap
         (cfg_loadprog.um.segments.getD (reg cfg_loadprog.um 3) 0) =
           some [2, 9, 9]) ∧
     ([2, 9, 9] : List Nat).length = ([2, 9, 9] : List Nat).getD 0 0 + 1 ∧
     cfg_loadprog.um.segments.getD (reg cfg_loadprog.um 3) 0 <
       cfg_loadprog.um.next_addr ∧
     cfg_loadprog.um.segments.getD 0 0 < cfg_loadprog.um.next_addr ∧
     (reg cfg_loadprog.um 3 ≠ 0 →
       cfg_loadprog.um.segments.getD (reg cfg_loadprog.um 3) 0 ≠
         cfg_loadprog.um.segments.getD 0 0) ∧
     0 < cfg_loadprog.um.segments.length ∧
     reg cfg_loadprog.um 3 ≠ 0 ∧
     reg cfg_loadprog0.um 3 = 0) ∧
    (step cfg_loadprog = .running { cfg_loadprog with um :=
       { load_program cfg_loadprog.um 3 with
           program_counter := reg cfg_loadprog.um 0 } } ∧
     (load_program cfg_loadprog.um 3).registers =
       cfg_loadprog.um.registers ∧
     (reg cfg_loadprog.um 3 ≠ 0 →
       seg_backing (load_program cfg_loadprog.um 3) 0 = [2, 9, 9] ∧
       (load_program cfg_loadprog.um 3).segments.getD 0 0 =
         cfg_loadprog.um.next_addr ∧
       (load_program cfg_loadprog.um 3).segments.getD
           (reg cfg_loadprog.um 3) 0 =
         cfg_loadprog.um.segments.getD (reg cfg_loadprog.um 3) 0 ∧
       cfg_loadprog.um.next_addr ≠
         cfg_loadprog.um.segments.getD (reg cfg_loadprog.um 3) 0 ∧
       seg_backing (load_program cfg_loadprog.um 3) (reg cfg_loadprog.um 3) =
         [2, 9, 9] ∧
       hlookup (load_program cfg_loadprog.um 3).heap
         (cfg_loadprog.um.segments.getD 0 0) = none ∧
       (∀ A2 B2 C2, reg cfg_loadprog.um A2 = reg cfg_loadprog.um 3 →
         seg_backing (segmented_store (load_program cfg_loadprog.um 3)
             A2 B2 C2) 0 =
           seg_backing (load_program cfg_loadprog.um 3) 0) ∧
       (∀ A2 B2 C2, reg cfg_loadprog.um A2 = 0 →
         seg_backing (segmented_store (load_program cfg_loadprog.um 3)
             A2 B2 C2) (reg cfg_loadprog.um 3) =
           seg_backing (load_program cfg_loadprog.um 3)
             (reg cfg_loadprog.um 3))) ∧
     (∀ B2, reg cfg_loadprog.um B2 = 0 →
       load_program cfg_loadprog.um B2 = cfg_loadprog.um) ∧
     load_program cfg_loadprog0.um 3 = cfg_loadprog0.um ∧
     step cfg_loadprog0 = .running { cfg_loadprog0 with um :=
       { cfg_loadprog0.um with
           program_counter := reg cfg_loadprog0.um 0 } }) := by
  obtain ⟨h1, h2, _h3, h4, h5⟩ :=
    load_program_step_spec cfg_loadprog 3 0 [2, 9, 9] (by decide) (by decide)
      (by decide) (by decide) (by decide) (by decide) (by decide) (by decide)
      (by decide)
  obtain ⟨_g1, _g2, g3, _g4, _g5⟩ :=
    load_program_step_spec cfg_loadprog0 3 0 [0] (by decide) (by decide)
      (by decide) (by decide) (by decide) (by decide) (by decide) (by decide)
      (by decide)
  obtain ⟨g3a, g3b⟩ := g3 (by decide)
  exact ⟨⟨by decide, by decide, by decide, by decide, by decide, by decide,
    by decide, by decide, by decide, by decide, by decide⟩,
    h1, h2, h4, h5, g3a, g3b⟩

theorem drop_one_set (l : List Nat) (i v : Nat) :
    (l.set (i + 1) v).drop 1 = (l.drop 1).set i v := by
  cases l <;> rfl

theorem segInv_heap_eq (s t : universal_machine) (h : t.heap = s.heap) :
    SegInv s → SegInv t := by
  intro hs a back hl
  rw [h] at hl
  exact hs a back hl

theorem segInv_map_segment (s : universal_machine) (n : Nat) :
    SegInv s → SegInv (map_segment s n).1 := by
  intro hs
  unfold map_segment
  rcases s.unmapped_IDs with _ | ⟨r, rest⟩ <;>
    intro a back hl <;>
    rw [hlookup_cons] at hl
  · by_cases h : s.next_addr = a
    · rw [if_pos h] at hl
      injection hl with h2
      subst h2
      simp
    · rw [if_neg h] at hl
      exact hs a back hl
  · by_cases h : s.next_addr = a
    · rw [if_pos h] at hl
      injection hl with h2
      subst h2
      simp
    · rw [if_neg h, hlookup_hfree] at hl
      by_cases h2 : s.segments.getD r 0 = a
      · rw [if_pos h2] at hl
        exact absurd hl (by simp)
      · rw [if_neg h2] at hl
        exact hs a back hl

theorem segInv_store (s : universal_machine) (A B C : UM_Reg) :
    SegInv s → SegInv (segmented_store s A B C) := by
  intro hs a back hl
  unfold segmented_store at hl
  rw [hlookup_hupdate] at hl
  by_cases h : s.segments.getD (reg s A) 0 = a
  · rw [if_pos h] at hl
    rcases h0 : hlookup s.heap (s.segments.getD (reg s A) 0)
      with _ | back0
    · rw [h0] at hl
      exact absurd hl (by simp)
    · rw [h0] at hl
      simp only [Option.map_some'] at hl
      injection hl with h2
      have hb0 := hs _ back0 h0
      have hsb : seg_backing s (reg s A) = back0 := by
        unfold seg_backing
        rw [h0]
        rfl
      subst h2
      rw [hsb, List.length_set,
        getD_set_ne _ _ _ _ _ (by omega)]
      exact hb0
  · rw [if_neg h] at hl
    exact hs a back hl

theorem segInv_load_program (s : universal_machine) (B : UM_Reg) :
    SegInv s → SegInv (load_program s B) := by
  intro hs
  unfold load_program
  by_cases hB : reg s B ≠ 0
  · rw [if_pos hB]
    intro a back hl
    simp only at hl
    rw [hlookup_cons] at hl
    by_cases h : s.next_addr = a
    · rw [if_pos h] at hl
      injection hl with h2
      subst h2
      have hlen2 : (List.map (fun i => (seg_backing s (reg s B)).getD i 0)
          (List.range ((seg_backing s (reg s B)).getD 0 0 + 1))).getD 0 0 =
          (seg_backing s (reg s B)).getD 0 0 := by
        rw [List.range_succ_eq_map, List.map_cons]
        rfl
      rw [List.length_map, List.length_range, hlen2]
    · rw [if_neg h, hlookup_hfree] at hl
      by_cases h2 : s.segments.getD 0 0 = a
      · rw [if_pos h2] at hl
        exact absurd hl (by simp)
      · rw [if_neg h2] at hl
        exact hs a back hl
  · rw [if_neg hB]
    exact hs

theorem heap_input (s : universal_machine) (C : UM_Reg) (st : List Nat) :
    (input s C st).1.heap = s.heap := by
  cases st <;> rfl

theorem heap_conditional_move (s : universal_machine) (A B C : UM_Reg) :
    (conditional_move s A B C).heap = s.heap := by
  unfold conditional_move
  split <;> rfl

theorem division_heap (s : universal_machine) (A B C : UM_Reg)
    (s2 : universal_machine) (h : division s A B C = some s2) :
    s2.heap = s.heap := by
  unfold division at h
  by_cases hz : reg s C = 0
  · rw [if_pos hz] at h
    exact absurd h (by simp)
  · rw [if_neg hz] at h
    injection h with h2
    rw [← h2]
    rfl

theorem segInv_map (s : universal_machine) (B C : UM_Reg) :
    SegInv s → SegInv (map s B C) :=
  fun hs => segInv_heap_eq _ _ rfl (segInv_map_segment s (reg s C) hs)

theorem segInv_bump_store (s : universal_machine) (A B C : UM_Reg) :
    SegInv s → SegInv (bump (segmented_store s A B C)) :=
  fun hs => segInv_store s A B C hs

theorem segInv_bump_map (s : universal_machine) (B C : UM_Reg) :
    SegInv s → SegInv (bump (map s B C)) :=
  fun hs => segInv_map s B C hs

theorem segInv_bump_cmove (s : universal_machine) (A B C : UM_Reg) :
    SegInv s → SegInv (bump (conditional_move s A B C)) :=
  fun hs =>
    segInv_heap_eq s (bump (conditional_move s A B C))
      (heap_conditional_move s A B C) hs

theorem segInv_bump_input (s : universal_machine) (C : UM_Reg)
    (st : List Nat) : SegInv s → SegInv (bump (input s C st).1) :=
  fun hs =>
    segInv_heap_eq s (bump (input s C st).1) (heap_input s C st) hs

theorem segInv_division_bump (s : universal_machine) (A B C : UM_Reg)
    (s2 : universal_machine) (h : division s A B C = some s2) :
    SegInv s → SegInv (bump s2) :=
  fun hs =>
    segInv_heap_eq s (bump s2) (division_heap s A B C s2 h) hs

theorem segInv_jump (s : universal_machine) (B C : UM_Reg) :
    SegInv s → SegInv { load_program s B with
      program_counter := reg (load_program s B) C } :=
  fun hs =>
    segInv_heap_eq (load_program s B) _ rfl (segInv_load_program s B hs)

theorem segInv_step (c : Config) :
    SegInv c.um → SegInv ((step c).config).um := by
  intro hs
  simp only [step]
  repeat' split
  all_goals
    first
      | exact hs
      | exact segInv_bump_store c.um _ _ _ hs
      | exact segInv_bump_map c.um _ _ hs
      | exact segInv_bump_cmove c.um _ _ _ hs
      | exact segInv_bump_input c.um _ c.stdin hs
      | exact segInv_jump c.um _ _ hs
      | (rename_i s2 heq
         exact segInv_division_bump c.um _ _ _ s2 heq hs)

/-- C8: the representation invariant of the backing arrays.  `map_segment`
allocates `n :: replicate n 0`, so backing index 0 holds the VM-visible
word count `n`; `segmented_load` reads backing index `R[C] + 1`
(VM-visible offset `R[C]`); `segmented_store` writes backing index
`R[B] + 1` and leaves the header at index 0 unchanged; instruction fetch
reads backing index `pc + 1`; `load_program` copies the backing of the
source segment, header included, into the new segment 0; and the
invariant `SegInv` (every backing's length is its index-0 header plus 1)
is preserved by `map_segment`, `segmented_store`, `load_program`,
`unmap_segment`, and by every full dispatch step. -/
theorem backing_header_invariant (s : universal_machine)
    (n A B C i : Nat) (back : List Nat) :
    hlookup (map_segment s n).1.heap s.next_addr =
      some (n :: List.replicate n 0) ∧
    (n :: List.replicate n 0).getD 0 0 = n ∧
    (n :: List.replicate n 0).length = n + 1 ∧
    (A < s.registers.length →
      reg (segmented_load s A B C) A =
        (seg_backing s (reg s B)).getD (reg s C + 1) 0 ∧
      reg (segmented_load s A B C) A =
        (view s (reg s B)).getD (reg s C) 0) ∧
    (hlookup s.heap (s.segments.getD (reg s A) 0) = some back →
      hlookup (segmented_store s A B C).heap
          (s.segments.getD (reg s A) 0) =
        some (back.set (reg s B + 1) (reg s C)) ∧
      (back.set (reg s B + 1) (reg s C)).getD 0 0 = back.getD 0 0 ∧
      view (segmented_store s A B C) (reg s A) =
        (view s (reg s A)).set (reg s B) (reg s C)) ∧
    fetch s = (view s 0).getD s.program_counter 0 ∧
    (SegInv s → reg s B ≠ 0 →
      hlookup s.heap (s.segments.getD (reg s B) 0) = some back →
      0 < s.segments.length →
      seg_backing (load_program s B) 0 = back) ∧
    (SegInv s → SegInv (map_segment s n).1) ∧
    (SegInv s → SegInv (segmented_store s A B C)) ∧
    (SegInv s → SegInv (load_program s B)) ∧
    (SegInv s → SegInv (unmap_segment s i)) ∧
    (∀ c : Config, SegInv c.um → SegInv ((step c).config).um) := by
  refine ⟨?_, rfl, by simp, ?_, ?_, ?_, ?_,
    segInv_map_segment s n, segInv_store s A B C,
    segInv_load_program s B, fun hs => hs, segInv_step⟩
  · unfold map_segment
    rcases s.unmapped_IDs with _ | ⟨r, rest⟩
    · rw [hlookup_cons, if_pos rfl]
    · rw [hlookup_cons, if_pos rfl]
  · intro hA
    have h1 : reg (segmented_load s A B C) A =
        (seg_backing s (reg s B)).getD (reg s C + 1) 0 := by
      show (s.registers.set A
        ((seg_backing s (reg s B)).getD (reg s C + 1) 0)).getD A 0 = _
      exact getD_set_self _ _ _ _ hA
    refine ⟨h1, ?_⟩
    rw [h1]
    unfold view
    rw [getD_drop_one]
  · intro hb
    have hsb0 : seg_backing s (reg s A) = back := by
      unfold seg_backing
      rw [hb]
      rfl
    refine ⟨?_, getD_set_ne _ _ _ _ _ (by omega), ?_⟩
    · show hlookup (hupdate s.heap (s.segments.getD (reg s A) 0)
        ((seg_backing s (reg s A)).set (reg s B + 1) (reg s C)))
        (s.segments.getD (reg s A) 0) = _
      rw [hlookup_hupdate, if_pos rfl, hb, hsb0]
      rfl
    · unfold view
      have h2 : seg_backing (segmented_store s A B C) (reg s A) =
          back.set (reg s B + 1) (reg s C) := by
        show (hlookup (hupdate s.heap (s.segments.getD (reg s A) 0)
          ((seg_backing s (reg s A)).set (reg s B + 1) (reg s C)))
          (s.segments.getD (reg s A) 0)).getD [] = _
        rw [hlookup_hupdate, if_pos rfl, hb, hsb0]
        rfl
      rw [h2, hsb0, drop_one_set]
  · unfold fetch view
    rw [getD_drop_one]
  · intro hsInv hRB hb hsp
    have hlen : back.length = back.getD 0 0 + 1 := hsInv _ back hb
    have htgt : seg_backing s (reg s B) = back := by
      unfold seg_backing
      rw [hb]
      rfl
    have hdc : (List.range ((seg_backing s (reg s B)).getD 0 0 + 1)).map
        (fun i2 => (seg_backing s (reg s B)).getD i2 0) = back := by
      rw [htgt, ← hlen, map_getD_range]
    have hlp : load_program s B =
        { s with
            segments := s.segments.set 0 s.next_addr
            heap := (s.next_addr, back) ::
              hfree s.heap (s.segments.getD 0 0)
            next_addr := s.next_addr + 1 } := by
      simp only [load_program]
      rw [if_pos hRB, hdc]
    unfold seg_backing
    rw [hlp]
    show (hlookup ((s.next_addr, back) ::
      hfree s.heap (s.segments.getD 0 0))
      ((s.segments.set 0 s.next_addr).getD 0 0)).getD [] = back
    rw [getD_set_self _ _ _ _ hsp, hlookup_cons, if_pos rfl]
    rfl

theorem segInv_um_roundtrip : SegInv um_roundtrip := by
  intro a back hl
  have he : um_roundtrip.heap = [(0, [1, 0]), (5, [2, 0, 0])] := rfl
  rw [he, hlookup_cons] at hl
  by_cases h0 : (0 : Nat) = a
  · rw [if_pos h0] at hl
    injection hl with h
    subst h
    rfl
  · rw [if_neg h0, hlookup_cons] at hl
    by_cases h5 : (5 : Nat) = a
    · rw [if_pos h5] at hl
      injection hl with h
      subst h
      rfl
    · rw [if_neg h5] at hl
      exact absurd hl (by simp [hlookup])

theorem segInv_cfg_halt : SegInv cfg_halt.um := by
  intro a back hl
  have he : cfg_halt.um.heap = [(0, [1, 0x70000000])] := rfl
  rw [he, hlookup_cons] at hl
  by_cases h0 : (0 : Nat) = a
  · rw [if_pos h0] at hl
    injection hl with h
    subst h
    rfl
  · rw [if_neg h0] at hl
    exact absurd hl (by simp [hlookup])

/-- Witness for `backing_header_invariant` on `um_roundtrip`
(A=0, B=4, C=2, n=2, source backing `[2, 0, 0]`) and, for the step
conjunct, on the halting configuration `cfg_halt`. -/
theorem backing_header_invariant_witness :
    (SegInv um_roundtrip ∧
     0 < um_roundtrip.registers.length ∧
     hlookup um_roundtrip.heap
       (um_roundtrip.segments.getD (reg um_roundtrip 0) 0) =
         some [2, 0, 0] ∧
     reg um_roundtrip 4 ≠ 0 ∧
     hlookup um_roundtrip.heap
       (um_roundtrip.segments.getD (reg um_roundtrip 4) 0) =
         some [2, 0, 0] ∧
     0 < um_roundtrip.segments.length ∧
     SegInv cfg_halt.um) ∧
    (hlookup (map_segment um_roundtrip 2).1.heap um_roundtrip.next_addr =
       some (2 :: List.replicate 2 0) ∧
     reg (segmented_load um_roundtrip 0 4 2) 0 =
       (seg_backing um_roundtrip (reg um_roundtrip 4)).getD
         (reg um_roundtrip 2 + 1) 0 ∧
     hlookup (segmented_store um_roundtrip 0 4 2).heap
         (um_roundtrip.segments.getD (reg um_roundtrip 0) 0) =
       some (([2, 0, 0] : List Nat).set (reg um_roundtrip 4 + 1)
         (reg um_roundtrip 2)) ∧
     fetch um_roundtrip =
       (view um_roundtrip 0).getD um_roundtrip.program_counter 0 ∧
     seg_backing (load_program um_roundtrip 4) 0 = [2, 0, 0] ∧
     SegInv (map_segment um_roundtrip 2).1 ∧
     SegInv (segmented_store um_roundtrip 0 4 2) ∧
     SegInv (load_program um_roundtrip 4) ∧
     SegInv (unmap_segment um_roundtrip 1) ∧
     SegInv ((step cfg_halt).config).um) := by
  obtain ⟨h1, h2, h3, h4, h5, h6, h7, h8, h9, h10, h11, h12⟩ :=
    backing_header_invariant um_roundtrip 2 0 4 2 1 [2, 0, 0]
  exact ⟨⟨segInv_um_roundtrip, by decide, by decide, by decide, by decide,
    by decide, segInv_cfg_halt⟩,
    h1, (h4 (by decide)).1, (h5 (by decide)).1,
    h6, h7 segInv_um_roundtrip (by decide) (by decide) (by decide),
    h8 segInv_um_roundtrip, h9 segInv_um_roundtrip,
    h10 segInv_um_roundtrip, h11 segInv_um_roundtrip,
    h12 cfg_halt segInv_cfg_halt⟩

theorem fitsu8 (b : Nat) (hb : b < 256) : Bitpack_fitsu b 8 = true := by
  unfold Bitpack_fitsu shr
  rw [if_neg (by omega), Nat.shiftRight_eq_div_pow]
  have h : b / 2 ^ 8 = 0 := Nat.div_eq_of_lt (by omega)
  rw [h]
  rfl

theorem newu_acc (w b lsb : Nat) (hlsb : lsb + 8 ≤ 32)
    (hw : w < 2 ^ 32) (hdvd : w % 2 ^ (lsb + 8) = 0) (hb : b < 256) :
    Bitpack_newu w 8 lsb b = some (w + b * 2 ^ lsb) := by
  unfold Bitpack_newu
  rw [fitsu8 b hb]
  simp only [if_true]
  have hw64 : w < 2 ^ 64 := lt_of_lt_of_le hw (Nat.pow_le_pow_right (by omega) (by omega))
  have hhi : shl (shr w (lsb + 8)) (lsb + 8) = w := by
    unfold shl shr
    rw [if_neg (by omega), if_neg (by omega)]
    rw [Nat.shiftRight_eq_div_pow, Nat.shiftLeft_eq]
    rw [Nat.div_mul_cancel (Nat.dvd_of_mod_eq_zero hdvd)]
    exact Nat.mod_eq_of_lt hw64
  have hlow : shr (shl w (64 - lsb)) (64 - lsb) = 0 := by
    unfold shl shr
    by_cases hz : lsb = 0
    · subst hz
      norm_num
    · rw [if_neg (by omega), if_neg (by omega)]
      obtain ⟨q, hq⟩ := Nat.dvd_of_mod_eq_zero hdvd
      have hmod : (w <<< (64 - lsb)) % 2 ^ 64 = 0 := by
        rw [Nat.shiftLeft_eq, hq]
        have he : 2 ^ (lsb + 8) * q * 2 ^ (64 - lsb) =
            2 ^ 8 * q * 2 ^ 64 := by
          rw [pow_add]
          have h64 : 2 ^ lsb * 2 ^ (64 - lsb) = 2 ^ 64 := by
            rw [← pow_add]
            congr 1
            omega
          calc 2 ^ lsb * 2 ^ 8 * q * 2 ^ (64 - lsb)
              = 2 ^ 8 * q * (2 ^ lsb * 2 ^ (64 - lsb)) := by ring
            _ = 2 ^ 8 * q * 2 ^ 64 := by rw [h64]
        rw [he]
        exact Nat.mul_mod_left _ _
      rw [hmod]
      exact Nat.zero_shiftRight _
  have h1 : b * 2 ^ lsb < 2 ^ 8 * 2 ^ lsb :=
    (Nat.mul_lt_mul_right (Nat.pos_pow_of_pos lsb (by omega))).mpr (by omega)
  have h2 : (2 : Nat) ^ 8 * 2 ^ lsb = 2 ^ (lsb + 8) := by
    rw [pow_add]
    ring
  have hlt : b * 2 ^ lsb < 2 ^ (lsb + 8) := by
    calc b * 2 ^ lsb < 2 ^ 8 * 2 ^ lsb := h1
      _ = 2 ^ (lsb + 8) := h2
  have hval : b <<< lsb % 2 ^ 64 = b * 2 ^ lsb := by
    rw [Nat.shiftLeft_eq]
    refine Nat.mod_eq_of_lt ?_
    have h3 : (2 : Nat) ^ (lsb + 8) ≤ 2 ^ 64 :=
      Nat.pow_le_pow_right (by omega) (by omega)
    calc b * 2 ^ lsb < 2 ^ (lsb + 8) := hlt
      _ ≤ 2 ^ 64 := h3
  rw [hhi, hlow, hval, Nat.or_zero]
  rw [or_eq_add (lsb + 8) w (b * 2 ^ lsb) hdvd hlt]

theorem decode_group (b0 b1 b2 b3 : Nat) (_hb0 : b0 < 256) (h1 : b1 < 256)
    (h2 : b2 < 256) (h3 : b3 < 256) :
    (b0 <<< 24) ||| (b1 <<< 16) ||| (b2 <<< 8) ||| b3 =
      b0 * 2 ^ 24 + b1 * 2 ^ 16 + b2 * 2 ^ 8 + b3 := by
  rw [Nat.shiftLeft_eq, Nat.shiftLeft_eq, Nat.shiftLeft_eq]
  rw [or_eq_add 24 (b0 * 2 ^ 24) (b1 * 2 ^ 16) (by omega) (by omega)]
  rw [or_eq_add 16 (b0 * 2 ^ 24 + b1 * 2 ^ 16) (b2 * 2 ^ 8)
    (by omega) (by omega)]
  rw [or_eq_add 8 (b0 * 2 ^ 24 + b1 * 2 ^ 16 + b2 * 2 ^ 8) b3
    (by omega) (by omega)]

theorem read_words_eq (n : Nat) : ∀ bytes : List Nat,
    bytes.length = 4 * n → (∀ b ∈ bytes, b < 256) →
    read_words bytes = some (decode_be bytes) := by
  induction n with
  | zero =>
    intro bytes hlen hb
    cases bytes with
    | nil => rfl
    | cons x xs =>
      simp at hlen
  | succ n ih =>
    intro bytes hlen hb
    rcases bytes with _ | ⟨b0, bytes⟩
    · simp at hlen
    rcases bytes with _ | ⟨b1, bytes⟩
    · simp at hlen
      omega
    rcases bytes with _ | ⟨b2, bytes⟩
    · simp at hlen
      omega
    rcases bytes with _ | ⟨b3, rest⟩
    · simp at hlen
      omega
    have hb0 : b0 < 256 := hb b0 (by simp)
    have hb1 : b1 < 256 := hb b1 (by simp)
    have hb2 : b2 < 256 := hb b2 (by simp)
    have hb3 : b3 < 256 := hb b3 (by simp)
    have hbrest : ∀ b ∈ rest, b < 256 := fun b hm => hb b (by simp [hm])
    have hrest : rest.length = 4 * n := by
      simp at hlen
      omega
    have hih := ih rest hrest hbrest
    have hrw : read_words (b0 :: b1 :: b2 :: b3 :: rest) =
        (Bitpack_newu 0 8 24 b0).bind (fun w1 =>
          (Bitpack_newu w1 8 16 b1).bind (fun w2 =>
            (Bitpack_newu w2 8 8 b2).bind (fun w3 =>
              (Bitpack_newu w3 8 0 b3).bind (fun w4 =>
                (read_words rest).bind (fun ws => some (w4 :: ws)))))) := rfl
    rw [hrw]
    rw [newu_acc 0 b0 24 (by omega) (by omega) (by omega) hb0]
    simp only [Option.some_bind]
    rw [newu_acc (0 + b0 * 2 ^ 24) b1 16 (by omega) (by omega) (by omega) hb1]
    simp only [Option.some_bind]
    rw [newu_acc (0 + b0 * 2 ^ 24 + b1 * 2 ^ 16) b2 8
      (by omega) (by omega) (by omega) hb2]
    simp only [Option.some_bind]
    rw [newu_acc (0 + b0 * 2 ^ 24 + b1 * 2 ^ 16 + b2 * 2 ^ 8) b3 0
      (by omega) (by omega) (by omega) hb3]
    simp only [Option.some_bind]
    rw [hih]
    simp only [Option.some_bind]
    have hw : (0 + b0 * 2 ^ 24 + b1 * 2 ^ 16 + b2 * 2 ^ 8 + b3 * 2 ^ 0 : Nat) =
        (b0 <<< 24) ||| (b1 <<< 16) ||| (b2 <<< 8) ||| b3 := by
      rw [decode_group b0 b1 b2 b3 hb0 hb1 hb2 hb3]
      omega
    rw [hw]
    rfl

/-- C5: loading a program file whose byte length is a multiple of 4
decodes each consecutive group `b0 b1 b2 b3` as the big-endian word
`(b0<<24)|(b1<<16)|(b2<<8)|b3` (the spec-side `decode_be`), and the word
sequence, in the order read, becomes the initial segment 0 (behind the
length header) of a machine whose program counter is 0. -/
theorem read_program_file_spec (bytes : List Nat)
    (hlen : bytes.length % 4 = 0) (hbytes : ∀ b ∈ bytes, b < 256) :
    read_program_file bytes =
      some (new_UM ((decode_be bytes).length :: decode_be bytes)) ∧
    (∀ u, read_program_file bytes = some u →
      view u 0 = decode_be bytes ∧ u.program_counter = 0) := by
  have h4 : bytes.length = 4 * (bytes.length / 4) := by omega
  have hrw := read_words_eq (bytes.length / 4) bytes h4 hbytes
  have h1 : read_program_file bytes =
      some (new_UM ((decode_be bytes).length :: decode_be bytes)) := by
    unfold read_program_file
    rw [hrw]
    rfl
  refine ⟨h1, ?_⟩
  intro u hu
  rw [h1] at hu
  injection hu with hu2
  subst hu2
  exact ⟨rfl, rfl⟩

/-- Witness for `read_program_file_spec` on the four-byte file
`70 00 00 00` (a single Halt instruction). -/
theorem read_program_file_spec_witness :
    (([0x70, 0, 0, 0] : List Nat).length % 4 = 0 ∧
     ∀ b ∈ ([0x70, 0, 0, 0] : List Nat), b < 256) ∧
    (read_program_file [0x70, 0, 0, 0] =
       some (new_UM ((decode_be [0x70, 0, 0, 0]).length ::
         decode_be [0x70, 0, 0, 0])) ∧
     (∀ u, read_program_file [0x70, 0, 0, 0] = some u →
       view u 0 = decode_be [0x70, 0, 0, 0] ∧ u.program_counter = 0)) :=
  ⟨⟨by decide, by decide⟩,
   read_program_file_spec [0x70, 0, 0, 0] (by decide) (by decide)⟩
